import Mathlib

/-!
Verification of the syzygy x86-32 assembler engine (`syzygy/assm/assembler_base.h`).

The repository ships only the declaration header `assembler_base.h`; the
implementation (`assembler_base_impl.h`, `label_base.h`, `operand_base.h`,
`value_base.h`) is referenced by the header but not present, so the
operational behaviour below is modelled from the specification, anchored on
the declarations that are present (member list, `kMaxNopInstructionSize`,
the `nop1`/`nop4`/`nop5`/`nop7`/`nop8` helpers, the `InstructionSerializer`
interface, and the documented semantics of `j`).

Machine integers are modelled as `Nat`/`Int`; the byte-level displacement
fields are computed with explicit reduction modulo `2 ^ (8 * width)`, which
is where the C++ `uint32_t` wraparound is observable.
-/

namespace assm

/-- Little-endian value of a list of bytes (least significant byte first). -/
def bytesLE (bs : List Nat) : Nat :=
  bs.foldr (fun b acc => b + 256 * acc) 0

/-- Modelled from the spec: the byte image of a displacement value, as written
by `AssemblerBase::FinalizeLabel` and the displacement emitter in the missing
`assembler_base_impl.h`. The value is reduced modulo `2 ^ (8 * w)` (C++
unsigned wraparound) and laid out little-endian over `w` bytes. -/
def encodeDisp (d : Int) (w : Nat) : List Nat :=
  (List.range w).map (fun i => (d % ((2 : Int) ^ (8 * w))).toNat / 2 ^ (8 * i) % 256)

/-- Signed (two's complement) reading of a little-endian byte sequence. -/
def decodeDispSigned (bs : List Nat) : Int :=
  if 2 * bytesLE bs < 2 ^ (8 * bs.length) then (bytesLE bs : Int)
  else (bytesLE bs : Int) - 2 ^ (8 * bs.length)

/-- A pending patch record attached to an unbound label: byte-offset of the
reserved displacement field in the output stream, field width in bytes, and
whether the stored value is PC-relative. Mirrors the `PendingPatch` data of
the missing `label_base.h`, as described by the spec. -/
structure PendingPatch where
  offset : Nat
  size : Nat
  relative : Bool
deriving DecidableEq, Repr

/-- State of a label: unbound with its ordered list of pending patches, or
bound to a location. -/
inductive LabelSt where
  | unbound (patches : List PendingPatch)
  | bound (loc : Nat)
deriving DecidableEq, Repr

/-- One `InstructionSerializer::FinalizeLabel` request: the byte offset of
previously appended bytes to overwrite, and the replacement bytes. -/
structure FinalizeReq where
  location : Nat
  bytes : List Nat
deriving DecidableEq, Repr

/-- A `ReferenceInfo` record (`assembler_base.h`, lines 49-54): offset within
the appended instruction, the opaque reference value (modelled as `Nat`),
field width in bits, and the pc-relative flag. -/
structure ReferenceInfo where
  offset : Nat
  reference : Nat
  size : Nat
  pc_relative : Bool
deriving DecidableEq, Repr

/-- One callback into the external `InstructionSerializer`: either
`AppendInstruction(location, bytes, refs)` or `FinalizeLabel(req)`. -/
inductive SerCall where
  | append (location : Nat) (bytes : List Nat) (refs : List ReferenceInfo)
  | finalize (req : FinalizeReq)
deriving DecidableEq, Repr

/-- Modelled from the spec: the finalize request issued for one pending patch
when its label is bound at location `B`; the overwritten bytes are the
little-endian image of displacement `B - (offset + size)` over exactly
`size` bytes (the body of the missing `AssemblerBase::FinalizeLabel`). -/
def mkReq (B : Nat) (p : PendingPatch) : FinalizeReq :=
  { location := p.offset
    bytes := encodeDisp ((B : Int) - ((p.offset : Int) + (p.size : Int))) p.size }

/-- Modelled from the spec: binding walks the label's pending-patch list in
order, issuing one finalize request per patch; a refusal by the serializer
stops the walk and reports failure, without undoing earlier patches (the
missing `label_base.h` bind loop). Returns the issued requests and the
success flag. -/
def bindRun (accept : FinalizeReq → Bool) (B : Nat) :
    List PendingPatch → List FinalizeReq × Bool
  | [] => ([], true)
  | p :: ps =>
    let r := mkReq B p
    if accept r then
      let rest := bindRun accept B ps
      (r :: rest.1, rest.2)
    else ([r], false)

/-- The effect of one `FinalizeLabel` overwrite on the serialized byte
stream: bytes `[off, off + bs.length)` are replaced by `bs`, in place. -/
def applyPatch (stream : List Nat) (off : Nat) (bs : List Nat) : List Nat :=
  stream.take off ++ bs ++ stream.drop (off + bs.length)

/-- The maximum size of a single NOP instruction
(`AssemblerBase::kMaxNopInstructionSize`, `assembler_base.h` line 46). -/
def kMaxNopInstructionSize : Nat := 11

/-- Canonical no-op instruction bodies at the lengths 1, 4, 5, 7 and 8
offered by the `nop1`/`nop4`/`nop5`/`nop7`/`nop8` helpers declared in
`assembler_base.h` (lines 277-281); byte values follow the Intel
recommended sequences. -/
def nopCanonical (b : Nat) : List Nat :=
  if b = 1 then [0x90]
  else if b = 4 then [0x0F, 0x1F, 0x40, 0x00]
  else if b = 5 then [0x0F, 0x1F, 0x44, 0x00, 0x00]
  else if b = 7 then [0x0F, 0x1F, 0x80, 0x00, 0x00, 0x00, 0x00]
  else [0x0F, 0x1F, 0x84, 0x00, 0x00, 0x00, 0x00, 0x00]

/-- Modelled from the spec: the largest canonical no-op length not exceeding
`n` (so that the remainder can be consumed by operand-size-override
prefixes), for `1 ≤ n`. -/
def nopBaseFor (n : Nat) : Nat :=
  if 8 ≤ n then 8 else if n = 7 then 7 else if 5 ≤ n then 5 else if n = 4 then 4 else 1

/-- A single NOP instruction of total length `n` (for `1 ≤ n ≤ 11`): the
canonical body of length `nopBaseFor n`, extended by one 0x66
operand-size-override prefix byte per remaining byte. -/
def nopInstr (n : Nat) : List Nat :=
  List.replicate (n - nopBaseFor n) 0x66 ++ nopCanonical (nopBaseFor n)

/-- Modelled from the spec: the NOP sequence generator behind
`AssemblerBase::nop` (`assembler_base.h` line 86; body in the missing
`assembler_base_impl.h`). Greedily emits maximal 11-byte instructions and
finishes with one instruction covering the remainder exactly. -/
def nopGen (n : Nat) : List (List Nat) :=
  if n = 0 then []
  else if 11 ≤ n then nopInstr 11 :: nopGen (n - 11)
  else [nopInstr n]
termination_by n
decreasing_by omega

/-- Requested size/reach of a control-transfer instruction: `rnone` maps to
the C++ `kSizeNone` default, `rshort` to the 8-bit (`kSize8Bit`) reach and
`rlong` to the 32-bit (`kSize32Bit`) reach. -/
inductive Reach where
  | rnone
  | rshort
  | rlong
deriving DecidableEq, Repr

/-- Mutable state of the driver together with the label registry: per
`assembler_base.h` lines 292-296 the assembler's only fields are the
location cursor and the serializer pointer; labels are separate objects
owned by the caller and are kept here as a registry indexed by `Nat`. -/
structure Core where
  location : Nat
  labels : Nat → LabelSt

def getLabel (c : Core) (l : Nat) : LabelSt := c.labels l

def setLabel (c : Core) (l : Nat) (st : LabelSt) : Core :=
  { c with labels := Function.update c.labels l st }

/-- The public operations of the driver that the claims exercise: NOP
padding, returns, raw data bytes, a representative `mov reg, imm32`
(optionally carrying an opaque reference), conditional jumps to labels,
label binding, and the public `set_location` accessor. -/
inductive Op where
  | nop (n : Nat)
  | ret
  | retImm (imm : Nat)
  | data (b : Nat)
  | movRegImm (reg : Nat) (imm : Nat) (ref : Option Nat)
  | j (cc : Nat) (lbl : Nat) (reach : Reach)
  | bind (lbl : Nat)
  | set_location (n : Nat)
deriving DecidableEq, Repr

/-- Whether the computed displacement fits the short (8-bit signed) reach. -/
def fits8 (d : Int) : Bool := decide (-128 ≤ d ∧ d ≤ 127)

/-- Appending one finished instruction: a single
`AppendInstruction(location, bytes, refs)` callback, then the cursor
advances by the instruction length. -/
def emit (c : Core) (bytes : List Nat) (refs : List ReferenceInfo) :
    Core × List SerCall × Bool :=
  ({ c with location := c.location + bytes.length },
   [SerCall.append c.location bytes refs], true)

/-- Appending several instructions in order (used by `nop`). -/
def emitList (c : Core) : List (List Nat) → Core × List SerCall
  | [] => (c, [])
  | bs :: rest =>
    let first := emit c bs []
    let more := emitList first.1 rest
    (more.1, first.2.1 ++ more.2)

/-- A short conditional jump: opcode `0x70 + cc` followed by the 8-bit
displacement. -/
def shortJCond (cc : Nat) (d : Int) : List Nat := (0x70 + cc) :: encodeDisp d 1

/-- A long conditional jump: `0x0F`, `0x80 + cc`, then the 32-bit
displacement. -/
def longJCond (cc : Nat) (d : Int) : List Nat := 0x0F :: (0x80 + cc) :: encodeDisp d 4

/-- Modelled from the spec and the contract of `AssemblerBase::j`
(`assembler_base.h` lines 101-108): a bound label yields an immediately
computed displacement (optimal reach for `kSizeNone`; failure without side
effects when a requested short reach does not fit); an unbound label yields
a zero placeholder and one pending patch, with long reach when no specific
reach was requested. The body lives in the missing
`assembler_base_impl.h`. -/
def stepJ (c : Core) (cc lbl : Nat) (reach : Reach) : Core × List SerCall × Bool :=
  match getLabel c lbl with
  | LabelSt.bound L =>
    match reach with
    | Reach.rshort =>
      let d := (L : Int) - ((c.location : Int) + 2)
      if fits8 d then emit c (shortJCond cc d) [] else (c, [], false)
    | Reach.rlong => emit c (longJCond cc ((L : Int) - ((c.location : Int) + 6))) []
    | Reach.rnone =>
      let d := (L : Int) - ((c.location : Int) + 2)
      if fits8 d then emit c (shortJCond cc d) []
      else emit c (longJCond cc ((L : Int) - ((c.location : Int) + 6))) []
  | LabelSt.unbound ps =>
    match reach with
    | Reach.rshort =>
      let c1 := setLabel c lbl (LabelSt.unbound
        (ps ++ [{ offset := c.location + 1, size := 1, relative := true }]))
      emit c1 (shortJCond cc 0) []
    | _ =>
      let c1 := setLabel c lbl (LabelSt.unbound
        (ps ++ [{ offset := c.location + 2, size := 4, relative := true }]))
      emit c1 (longJCond cc 0) []

/-- Modelled from the spec: `Bind(label)` sets the label's location to the
current cursor, consumes the pending-patch list and issues the finalize
requests via `bindRun`. Binding an already-bound label violates the spec's
"a label binds at most once" precondition and is modelled as a no-op. -/
def stepBind (accept : FinalizeReq → Bool) (c : Core) (lbl : Nat) :
    Core × List SerCall × Bool :=
  match getLabel c lbl with
  | LabelSt.bound _ => (c, [], true)
  | LabelSt.unbound ps =>
    let r := bindRun accept c.location ps
    (setLabel c lbl (LabelSt.bound c.location), r.1.map SerCall.finalize, r.2)

/-- The encoding of a 32-bit immediate (little-endian). -/
def encImm32 (imm : Nat) : List Nat := encodeDisp (imm : Int) 4

/-- One public call on the driver: computes the serializer callbacks it
performs and the resulting state, plus the boolean outcome the C++ call
reports (`true` for the `void` operations, which cannot fail). -/
def step (accept : FinalizeReq → Bool) (c : Core) : Op → Core × List SerCall × Bool
  | Op.nop n =>
    let r := emitList c (nopGen n)
    (r.1, r.2, true)
  | Op.ret => emit c [0xC3] []
  | Op.retImm imm => emit c [0xC2, imm % 256, imm / 256 % 256] []
  | Op.data b => emit c [b % 256] []
  | Op.movRegImm reg imm ref =>
    emit c ((0xB8 + reg % 8) :: encImm32 imm)
      (match ref with
       | none => []
       | some v => [{ offset := 1, reference := v, size := 32, pc_relative := false }])
  | Op.j cc lbl reach => stepJ c cc lbl reach
  | Op.bind lbl => stepBind accept c lbl
  | Op.set_location n => ({ c with location := n }, [], true)

/-- A sequence of public calls, returning the final state, the concatenated
serializer callback trace and the conjunction of the call outcomes. -/
def run (accept : FinalizeReq → Bool) (c : Core) : List Op → Core × List SerCall × Bool
  | [] => (c, [], true)
  | op :: ops =>
    let r1 := step accept c op
    let r2 := run accept r1.1 ops
    (r2.1, r1.2.1 ++ r2.2.1, r1.2.2 && r2.2.2)

/-- Length of the bytes delivered by an append callback (zero for a
finalize callback, which only rewrites already-delivered bytes). -/
def appendLen : SerCall → Nat
  | SerCall.append _ bytes _ => bytes.length
  | SerCall.finalize _ => 0

/-- Whether an op is the public `set_location` accessor. -/
def Op.isSetLoc : Op → Bool
  | Op.set_location _ => true
  | _ => false

/-- Modelled from the spec (section 4.3, missing `operand_base.h` and opcode
emitter): the displacement field emitted for a memory operand `[base + disp]`
with a base register, sized to the smallest representation preserving the
value; omitted entirely when the displacement is zero, unless the base is
register code 5 (the one register whose zero-mod ModRM pattern collides with
the absolute-addressing special case), which forces one explicit zero
byte. -/
def dispField (base : Nat) (disp : Int) : List Nat :=
  if disp = 0 ∧ base ≠ 5 then []
  else if fits8 disp then encodeDisp disp 1
  else encodeDisp disp 4

/-- Modelled from the spec (section 4.3): ModRM byte (mod selected by the
displacement size), then a SIB byte when the base is register code 4 (which
requires one), then the displacement field. -/
def encodeMemBaseDisp (r base : Nat) (disp : Int) : List Nat :=
  ((if disp = 0 ∧ base ≠ 5 then 0 else if fits8 disp then 64 else 128) + r * 8 + base)
    :: ((if base = 4 then [36] else []) ++ dispField base disp)

theorem encodeDisp_length (d : Int) (w : Nat) : (encodeDisp d w).length = w := by
  simp [encodeDisp]

theorem bytesLE_cons (b : Nat) (bs : List Nat) :
    bytesLE (b :: bs) = b + 256 * bytesLE bs := rfl

/-- Reassembling the little-endian byte decomposition of `n < 2 ^ (8 * w)`
recovers `n`. -/
theorem bytesLE_bytesOf (w : Nat) :
    ∀ n : Nat, n < 2 ^ (8 * w) →
      bytesLE ((List.range w).map (fun i => n / 2 ^ (8 * i) % 256)) = n := by
  induction w with
  | zero =>
    intro n h
    simp only [Nat.mul_zero, pow_zero, Nat.lt_one_iff] at h
    subst h
    simp [bytesLE]
  | succ w ih =>
    intro n h
    rw [List.range_succ_eq_map]
    rw [List.map_cons, List.map_map]
    have hcomp : ((fun i => n / 2 ^ (8 * i) % 256) ∘ Nat.succ)
        = (fun i => (n / 256) / 2 ^ (8 * i) % 256) := by
      funext i
      have h8 : 8 * Nat.succ i = 8 * i + 8 := by omega
      have h256 : (2 : Nat) ^ 8 = 256 := by norm_num
      simp only [Function.comp_apply, h8, pow_add, h256]
      rw [Nat.div_div_eq_div_mul, Nat.mul_comm (256 : Nat)]
    rw [hcomp]
    have hdiv : n / 256 < 2 ^ (8 * w) := by
      have h8 : 8 * Nat.succ w = 8 * w + 8 := by omega
      have h256 : (2 : Nat) ^ 8 = 256 := by norm_num
      rw [h8, pow_add, h256] at h
      exact Nat.div_lt_iff_lt_mul (by norm_num) |>.mpr (by simpa using h)
    rw [bytesLE_cons, ih (n / 256) hdiv]
    simp [Nat.mod_add_div]

theorem bytesLE_encodeDisp (d : Int) (w : Nat) :
    bytesLE (encodeDisp d w) = (d % ((2 : Int) ^ (8 * w))).toNat := by
  have hpos : (0 : Int) < (2 : Int) ^ (8 * w) := by positivity
  have hlt : (d % ((2 : Int) ^ (8 * w))).toNat < 2 ^ (8 * w) := by
    have h1 : d % ((2 : Int) ^ (8 * w)) < (2 : Int) ^ (8 * w) :=
      Int.emod_lt_of_pos d hpos
    have h2 : ((2 : Int) ^ (8 * w)) = ((2 ^ (8 * w) : Nat) : Int) := by push_cast; ring
    omega
  exact bytesLE_bytesOf w _ hlt

/-- Round trip: a displacement within the signed range of a `w`-byte field is
recovered exactly by the signed decoding of its encoded bytes. -/
theorem decodeDispSigned_encodeDisp (d : Int) (w : Nat) (hw : 0 < w)
    (hlo : -((2 : Int) ^ (8 * w - 1)) ≤ d) (hhi : d < (2 : Int) ^ (8 * w - 1)) :
    decodeDispSigned (encodeDisp d w) = d := by
  have hsplit : (8 * w - 1) + 1 = 8 * w := by omega
  have hm : (2 : Int) ^ (8 * w) = 2 * (2 : Int) ^ (8 * w - 1) := by
    calc (2 : Int) ^ (8 * w) = (2 : Int) ^ ((8 * w - 1) + 1) := by rw [hsplit]
      _ = 2 * (2 : Int) ^ (8 * w - 1) := by rw [pow_succ]; ring
  have hmn : (2 : Nat) ^ (8 * w) = 2 * 2 ^ (8 * w - 1) := by
    calc (2 : Nat) ^ (8 * w) = (2 : Nat) ^ ((8 * w - 1) + 1) := by rw [hsplit]
      _ = 2 * 2 ^ (8 * w - 1) := by rw [pow_succ]; ring
  have hcastm : ((2 ^ (8 * w) : Nat) : Int) = (2 : Int) ^ (8 * w) := by
    push_cast; ring
  have hcastk : ((2 ^ (8 * w - 1) : Nat) : Int) = (2 : Int) ^ (8 * w - 1) := by
    push_cast; ring
  have hv := bytesLE_encodeDisp d w
  have hlen := encodeDisp_length d w
  rcases le_or_lt 0 d with hd | hd
  · have hmod : d % ((2 : Int) ^ (8 * w)) = d := by
      apply Int.emod_eq_of_lt hd
      calc d < (2 : Int) ^ (8 * w - 1) := hhi
        _ ≤ (2 : Int) ^ (8 * w) := by
            rw [hm]; nlinarith [pow_pos (by norm_num : (0:Int) < 2) (8 * w - 1)]
    rw [decodeDispSigned, hlen, hv, hmod]
    have hdn : ((d.toNat : Nat) : Int) = d := Int.toNat_of_nonneg hd
    have hcond : 2 * d.toNat < 2 ^ (8 * w) := by
      have : 2 * d < (2 : Int) ^ (8 * w) := by rw [hm]; nlinarith
      omega
    rw [if_pos hcond, hdn]
  · have hmod : d % ((2 : Int) ^ (8 * w)) = d + (2 : Int) ^ (8 * w) := by
      have h1 : (d + (2 : Int) ^ (8 * w) * 1) % ((2 : Int) ^ (8 * w))
          = d % ((2 : Int) ^ (8 * w)) := Int.add_mul_emod_self_left ..
      have h2 : d + (2 : Int) ^ (8 * w) * 1 = d + (2 : Int) ^ (8 * w) := by ring
      rw [h2] at h1
      rw [← h1]
      apply Int.emod_eq_of_lt
      · rw [hm]; nlinarith [pow_pos (by norm_num : (0:Int) < 2) (8 * w - 1)]
      · have : (0 : Int) < (2 : Int) ^ (8 * w) := by positivity
        omega
    rw [decodeDispSigned, hlen, hv, hmod]
    have hnn : (0 : Int) ≤ d + (2 : Int) ^ (8 * w) := by
      rw [hm]; nlinarith [pow_pos (by norm_num : (0:Int) < 2) (8 * w - 1)]
    have hdn : (((d + (2 : Int) ^ (8 * w)).toNat : Nat) : Int) = d + (2 : Int) ^ (8 * w) :=
      Int.toNat_of_nonneg hnn
    have hcond : ¬ 2 * (d + (2 : Int) ^ (8 * w)).toNat < 2 ^ (8 * w) := by
      have : (2 : Int) ^ (8 * w) ≤ 2 * (d + (2 : Int) ^ (8 * w)) := by rw [hm]; nlinarith
      omega
    rw [if_neg hcond]
    omega

theorem applyPatch_length (stream : List Nat) (off : Nat) (bs : List Nat)
    (h : off + bs.length ≤ stream.length) :
    (applyPatch stream off bs).length = stream.length := by
  simp only [applyPatch, List.length_append, List.length_take, List.length_drop]
  omega

theorem getElem?_drop_add {α : Type} (l : List α) (n m : Nat) :
    (l.drop n)[m]? = l[n + m]? := by
  induction n generalizing l with
  | zero => simp
  | succ n ih =>
    cases l with
    | nil => simp
    | cons a l =>
      have : Nat.succ n + m = (n + m) + 1 := by omega
      simp [List.drop_succ_cons, ih l, this]

/-- A patch rewrites no byte outside its reserved range. -/
theorem applyPatch_outside (stream : List Nat) (off : Nat) (bs : List Nat)
    (h : off + bs.length ≤ stream.length)
    (i : Nat) (hi : i < off ∨ off + bs.length ≤ i) :
    (applyPatch stream off bs)[i]? = stream[i]? := by
  rcases hi with hi | hi
  · have h1 : i < (stream.take off).length := by
      rw [List.length_take]; omega
    have h2 : i < (stream.take off ++ bs).length := by
      rw [List.length_append]; omega
    rw [applyPatch, List.getElem?_append_left h2, List.getElem?_append_left h1,
      List.getElem?_take_of_lt hi]
  · rcases le_or_lt stream.length i with hbig | hsmall
    · have h1 : stream[i]? = none := List.getElem?_eq_none (by omega)
      have h2 : (applyPatch stream off bs)[i]? = none :=
        List.getElem?_eq_none (by rw [applyPatch_length stream off bs h]; omega)
      rw [h1, h2]
    · have hlt : (stream.take off ++ bs).length ≤ i := by
        rw [List.length_append, List.length_take]
        omega
      rw [applyPatch, List.getElem?_append_right hlt, getElem?_drop_add]
      congr 1
      rw [List.length_append, List.length_take]
      omega

theorem nopBaseFor_le (n : Nat) (h : 1 ≤ n) : nopBaseFor n ≤ n := by
  unfold nopBaseFor
  split_ifs <;> omega

theorem nopCanonical_nopBaseFor_length (n : Nat) :
    (nopCanonical (nopBaseFor n)).length = nopBaseFor n := by
  unfold nopBaseFor nopCanonical
  split_ifs <;> simp_all

theorem nopInstr_length (n : Nat) (h1 : 1 ≤ n) :
    (nopInstr n).length = n := by
  rw [nopInstr, List.length_append, List.length_replicate,
    nopCanonical_nopBaseFor_length]
  have := nopBaseFor_le n h1
  omega

theorem nopGen_sum_all (n : Nat) :
    ((nopGen n).map List.length).sum = n
      ∧ (nopGen n).all (fun ins => ins.length ≤ kMaxNopInstructionSize) = true := by
  induction n using Nat.strong_induction_on with
  | _ n ih =>
    rw [nopGen]
    split_ifs with h0 h11
    · subst h0; simp
    · have hrec := ih (n - 11) (by omega)
      have h11len : (nopInstr 11).length = 11 := nopInstr_length 11 (by norm_num)
      constructor
      · simp only [List.map_cons, List.sum_cons, h11len, hrec.1]
        omega
      · simp only [List.all_cons, hrec.2, Bool.and_true, h11len]
        simp [kMaxNopInstructionSize]
    · have hlen : (nopInstr n).length = n := nopInstr_length n (by omega)
      constructor
      · simp [hlen]
      · simp only [List.all_cons, List.all_nil, Bool.and_true, hlen]
        simp only [kMaxNopInstructionSize]
        have : n ≤ 11 := by omega
        simp [this]

theorem sum_appendLen_finalize (rs : List FinalizeReq) :
    (List.map (appendLen ∘ SerCall.finalize) rs).sum = 0 := by
  induction rs with
  | nil => rfl
  | cons r rs ih => simp [Function.comp, appendLen, ih]

theorem emitList_location (l : List (List Nat)) :
    ∀ c : Core, (emitList c l).1.location
        = c.location + (((emitList c l).2).map appendLen).sum
      ∧ (emitList c l).1.labels = c.labels := by
  induction l with
  | nil => intro c; simp [emitList]
  | cons bs rest ih =>
    intro c
    have hrec := ih { c with location := c.location + bs.length }
    have hrec1 : (emitList { c with location := c.location + bs.length } rest).1.location
        = (c.location + bs.length)
          + ((emitList { c with location := c.location + bs.length } rest).2.map
              appendLen).sum := hrec.1
    constructor
    · simp only [emitList, emit, List.map_append, List.map_cons, List.map_nil,
        List.sum_append, List.sum_cons, List.sum_nil, appendLen]
      rw [hrec1]
      omega
    · simp only [emitList, emit]
      exact hrec.2

/-- Every public call except `set_location` moves the cursor by exactly the
total length of the bytes it delivered through append callbacks. -/
theorem step_location (accept : FinalizeReq → Bool) (c : Core) (op : Op)
    (h : op.isSetLoc = false) :
    (step accept c op).1.location
      = c.location + (((step accept c op).2.1).map appendLen).sum := by
  cases op with
  | nop n =>
    simpa [step] using (emitList_location (nopGen n) c).1
  | ret => simp [step, emit, appendLen]
  | retImm imm => simp [step, emit, appendLen]
  | data b => simp [step, emit, appendLen]
  | movRegImm reg imm ref => simp [step, emit, appendLen]
  | j cc lbl reach =>
    cases hL : getLabel c lbl with
    | bound L =>
      cases reach with
      | rnone =>
        simp only [step, stepJ, hL]
        split_ifs <;> simp [emit, appendLen]
      | rshort =>
        simp only [step, stepJ, hL]
        split_ifs <;> simp [emit, appendLen]
      | rlong => simp [step, stepJ, hL, emit, appendLen]
    | unbound ps =>
      cases reach <;> simp [step, stepJ, hL, emit, appendLen, setLabel]
  | bind lbl =>
    cases hL : getLabel c lbl with
    | bound L => simp [step, stepBind, hL]
    | unbound ps => simp [step, stepBind, hL, setLabel, sum_appendLen_finalize]
  | set_location n => simp [Op.isSetLoc] at h

theorem run_location (accept : FinalizeReq → Bool) (ops : List Op) :
    ∀ c : Core, (∀ op ∈ ops, op.isSetLoc = false) →
      (run accept c ops).1.location
        = c.location + (((run accept c ops).2.1).map appendLen).sum := by
  induction ops with
  | nil => intro c _; simp [run]
  | cons op ops ih =>
    intro c h
    have h1 : op.isSetLoc = false := h op (List.mem_cons_self op ops)
    have h2 : ∀ o ∈ ops, o.isSetLoc = false := fun o ho => h o (List.mem_cons_of_mem op ho)
    simp only [run, List.map_append, List.sum_append]
    rw [ih _ h2, step_location accept c op h1]
    omega

/-- When every request is accepted, binding issues exactly one finalize
request per pending patch, in list order, and succeeds. -/
theorem bindRun_all_accepted (accept : FinalizeReq → Bool) (B : Nat) :
    ∀ ps : List PendingPatch, (∀ p ∈ ps, accept (mkReq B p) = true) →
      bindRun accept B ps = (ps.map (mkReq B), true) := by
  intro ps
  induction ps with
  | nil => intro _; rfl
  | cons p ps ih =>
    intro h
    have hp : accept (mkReq B p) = true := h p (List.mem_cons_self p ps)
    have hps : ∀ q ∈ ps, accept (mkReq B q) = true :=
      fun q hq => h q (List.mem_cons_of_mem p hq)
    simp only [bindRun, hp, if_true, ih hps, List.map_cons]

/-- A refusal stops the bind walk: the requests before it were issued and
accepted, the refused one is issued last, and failure is reported. -/
theorem bindRun_refused (accept : FinalizeReq → Bool) (B : Nat) (p : PendingPatch)
    (ps₂ : List PendingPatch) (h2 : accept (mkReq B p) = false) :
    ∀ ps₁ : List PendingPatch, (∀ q ∈ ps₁, accept (mkReq B q) = true) →
      bindRun accept B (ps₁ ++ p :: ps₂) = (ps₁.map (mkReq B) ++ [mkReq B p], false) := by
  intro ps₁
  induction ps₁ with
  | nil =>
    intro _
    simp only [List.nil_append, bindRun, h2, List.map_nil]
    rfl
  | cons q qs ih =>
    intro h1
    have hq : accept (mkReq B q) = true := h1 q (List.mem_cons_self q qs)
    have hqs : ∀ x ∈ qs, accept (mkReq B x) = true :=
      fun x hx => h1 x (List.mem_cons_of_mem q hx)
    have hrec := ih hqs
    have hstep : bindRun accept B ((q :: qs) ++ p :: ps₂)
        = (mkReq B q :: (bindRun accept B (qs ++ p :: ps₂)).1,
           (bindRun accept B (qs ++ p :: ps₂)).2) := by
      simp only [List.cons_append, bindRun, hq, if_true]
      rfl
    rw [hstep, hrec]
    simp

/-- Claim C1: binding a label at location `B` issues exactly one serializer
finalize request per pending patch record; for a patch with offset `O` and
width `W` the overwritten bytes occupy exactly the reserved `W`-byte range
starting at `O` and decode (within the field's signed range) to the
displacement `B - (O + W)`; applying such an overwrite never resizes the
stream and changes no byte outside the reserved range. -/
theorem C1_bind_issues_patches (accept : FinalizeReq → Bool) (c : Core) (lbl : Nat)
    (ps : List PendingPatch) (hu : getLabel c lbl = LabelSt.unbound ps)
    (hacc : ∀ p ∈ ps, accept (mkReq c.location p) = true) :
    step accept c (Op.bind lbl)
      = (setLabel c lbl (LabelSt.bound c.location),
         (ps.map (mkReq c.location)).map SerCall.finalize, true)
    ∧ (∀ p ∈ ps, (mkReq c.location p).location = p.offset
        ∧ (mkReq c.location p).bytes.length = p.size)
    ∧ (∀ p ∈ ps, 0 < p.size →
        -((2 : Int) ^ (8 * p.size - 1))
            ≤ (c.location : Int) - ((p.offset : Int) + (p.size : Int)) →
        (c.location : Int) - ((p.offset : Int) + (p.size : Int))
            < (2 : Int) ^ (8 * p.size - 1) →
        decodeDispSigned ((mkReq c.location p).bytes)
          = (c.location : Int) - ((p.offset : Int) + (p.size : Int)))
    ∧ (∀ (stream : List Nat) (p : PendingPatch), p.offset + p.size ≤ stream.length →
        (applyPatch stream p.offset (mkReq c.location p).bytes).length = stream.length
        ∧ ∀ i : Nat, i < p.offset ∨ p.offset + p.size ≤ i →
            (applyPatch stream p.offset (mkReq c.location p).bytes)[i]? = stream[i]?) := by
  refine ⟨?_, ?_, ?_, ?_⟩
  · simp only [step, stepBind, hu, bindRun_all_accepted accept c.location ps hacc]
  · intro p _
    exact ⟨rfl, encodeDisp_length _ _⟩
  · intro p _ hw hlo hhi
    exact decodeDispSigned_encodeDisp _ p.size hw hlo hhi
  · intro stream p hst
    have hblen : (mkReq c.location p).bytes.length = p.size := encodeDisp_length _ _
    constructor
    · apply applyPatch_length
      rw [hblen]; exact hst
    · intro i hi
      apply applyPatch_outside
      · rw [hblen]; exact hst
      · rw [hblen]; exact hi

/-- Witness for C1 at a concrete bind: cursor 20, one pending 4-byte patch
at offset 10, an all-accepting serializer. -/
theorem C1_bind_issues_patches_witness :
    step (fun _ => true) ⟨20, fun _ => LabelSt.unbound [⟨10, 4, true⟩]⟩ (Op.bind 0)
      = (setLabel ⟨20, fun _ => LabelSt.unbound [⟨10, 4, true⟩]⟩ 0 (LabelSt.bound 20),
         (([⟨10, 4, true⟩] : List PendingPatch).map (mkReq 20)).map SerCall.finalize,
         true) :=
  (C1_bind_issues_patches (fun _ => true) ⟨20, fun _ => LabelSt.unbound [⟨10, 4, true⟩]⟩
    0 [⟨10, 4, true⟩] rfl (by simp)).1

/-- Claim C2: a jump to a label already bound at `L` encodes displacement
`L - e` where `e` is the end offset of the instruction (shown by decoding
the emitted displacement field); a requested short reach whose displacement
falls outside `[-128, 127]` fails, appends nothing and leaves the driver
state (cursor included) unchanged; with no requested reach the optimal
(short when it fits, otherwise long) encoding is selected. -/
theorem C2_bound_jump (accept : FinalizeReq → Bool) (c : Core) (cc lbl L : Nat)
    (hb : getLabel c lbl = LabelSt.bound L) :
    (fits8 ((L : Int) - ((c.location : Int) + 2)) = false →
        step accept c (Op.j cc lbl Reach.rshort) = (c, [], false))
    ∧ (fits8 ((L : Int) - ((c.location : Int) + 2)) = true →
        step accept c (Op.j cc lbl Reach.rshort)
          = ({ c with location := c.location + 2 },
             [SerCall.append c.location
               (shortJCond cc ((L : Int) - ((c.location : Int) + 2))) []], true)
          ∧ decodeDispSigned (encodeDisp ((L : Int) - ((c.location : Int) + 2)) 1)
              = (L : Int) - ((c.location : Int) + 2))
    ∧ (step accept c (Op.j cc lbl Reach.rlong)
        = ({ c with location := c.location + 6 },
           [SerCall.append c.location
             (longJCond cc ((L : Int) - ((c.location : Int) + 6))) []], true))
    ∧ (-((2 : Int) ^ 31) ≤ (L : Int) - ((c.location : Int) + 6) →
        (L : Int) - ((c.location : Int) + 6) < (2 : Int) ^ 31 →
        decodeDispSigned (encodeDisp ((L : Int) - ((c.location : Int) + 6)) 4)
          = (L : Int) - ((c.location : Int) + 6))
    ∧ (step accept c (Op.j cc lbl Reach.rnone)
        = step accept c (Op.j cc lbl
            (if fits8 ((L : Int) - ((c.location : Int) + 2)) then Reach.rshort
             else Reach.rlong))) := by
  refine ⟨?_, ?_, ?_, ?_, ?_⟩
  · intro hf
    simp [step, stepJ, hb, hf]
  · intro hf
    constructor
    · simp [step, stepJ, hb, hf, emit, shortJCond, encodeDisp_length]
    · have hrange := of_decide_eq_true hf
      apply decodeDispSigned_encodeDisp _ 1 (by norm_num)
      · norm_num
        omega
      · norm_num
        omega
  · simp [step, stepJ, hb, emit, longJCond, encodeDisp_length]
  · intro hlo hhi
    apply decodeDispSigned_encodeDisp _ 4 (by norm_num)
    · norm_num
      omega
    · norm_num
      omega
  · by_cases hf : fits8 ((L : Int) - ((c.location : Int) + 2)) = true
    · simp [step, stepJ, hb, hf]
    · simp only [Bool.not_eq_true] at hf
      simp [step, stepJ, hb, hf]

/-- Witness for C2: at cursor 0, a short jump to a label bound at 1000 is
out of reach, fails, appends nothing and leaves the state unchanged. -/
theorem C2_bound_jump_witness :
    step (fun _ => true) ⟨0, fun _ => LabelSt.bound 1000⟩ (Op.j 0 0 Reach.rshort)
      = (⟨0, fun _ => LabelSt.bound 1000⟩, [], false) :=
  (C2_bound_jump (fun _ => true) ⟨0, fun _ => LabelSt.bound 1000⟩ 0 0 1000 rfl).1
    (by decide)

/-- Claim C3: a jump to a not-yet-bound label with no requested reach is
encoded with the widest (32-bit) displacement field holding a zero
placeholder, and exactly one pending patch record with the placeholder
offset (cursor + 2), width 4 and relative = true is appended to that
label's patch list. -/
theorem C3_forward_default_long (accept : FinalizeReq → Bool) (c : Core)
    (cc lbl : Nat) (ps : List PendingPatch)
    (hu : getLabel c lbl = LabelSt.unbound ps) :
    step accept c (Op.j cc lbl Reach.rnone)
      = ({ location := c.location + 6,
           labels := Function.update c.labels lbl (LabelSt.unbound
             (ps ++ [{ offset := c.location + 2, size := 4, relative := true }])) },
         [SerCall.append c.location (0x0F :: (0x80 + cc) :: [0, 0, 0, 0]) []],
         true)
    ∧ longJCond cc 0 = 0x0F :: (0x80 + cc) :: [0, 0, 0, 0] := by
  have h0 : encodeDisp 0 4 = [0, 0, 0, 0] := by decide
  constructor
  · simp [step, stepJ, hu, emit, setLabel, longJCond, h0]
  · simp [longJCond, h0]

/-- Witness for C3: a forward conditional jump at cursor 0 to unbound
label 0 with default reach. -/
theorem C3_forward_default_long_witness :
    step (fun _ => true) ⟨0, fun _ => LabelSt.unbound []⟩ (Op.j 0 0 Reach.rnone)
      = ({ location := 6,
           labels := Function.update (fun _ => LabelSt.unbound []) 0
             (LabelSt.unbound [{ offset := 2, size := 4, relative := true }]) },
         [SerCall.append 0 (0x0F :: (0x80 + 0) :: [0, 0, 0, 0]) []], true) :=
  (C3_forward_default_long (fun _ => true) ⟨0, fun _ => LabelSt.unbound []⟩ 0 0 [] rfl).1

/-- Claim C4: for every requested byte count `n` the NOP generator emits
instructions whose lengths sum to exactly `n`, each at most
`kMaxNopInstructionSize` (11) bytes; `n = 0` emits nothing, and the `nop`
operation never fails. -/
theorem C4_nop_exact (n : Nat) :
    ((nopGen n).map List.length).sum = n
    ∧ (nopGen n).all (fun ins => ins.length ≤ kMaxNopInstructionSize) = true
    ∧ nopGen 0 = []
    ∧ ∀ (accept : FinalizeReq → Bool) (c : Core),
        (step accept c (Op.nop n)).2.2 = true := by
  refine ⟨(nopGen_sum_all n).1, (nopGen_sum_all n).2, ?_, ?_⟩
  · rw [nopGen]
    simp
  · intro accept c
    simp [step]

/-- Claim C5: after any sequence of emission calls (anything but the
`set_location` accessor), the location accessor equals the starting
location plus the sum of the lengths of all instructions delivered to the
serializer, in call order; failed calls deliver nothing and do not move the
cursor. -/
theorem C5_location_accounting (accept : FinalizeReq → Bool) (loc0 : Nat)
    (labels0 : Nat → LabelSt) (ops : List Op)
    (h : ops.all (fun op => !op.isSetLoc) = true) :
    (run accept ⟨loc0, labels0⟩ ops).1.location
      = loc0 + (((run accept ⟨loc0, labels0⟩ ops).2.1).map appendLen).sum := by
  apply run_location
  intro op hop
  have := List.all_eq_true.mp h op hop
  simpa using this

/-- Witness for C5: a return followed by three NOP bytes from location 0. -/
theorem C5_location_accounting_witness :
    (run (fun _ => true) ⟨0, fun _ => LabelSt.unbound []⟩ [Op.ret, Op.nop 3]).1.location
      = 0 + (((run (fun _ => true) ⟨0, fun _ => LabelSt.unbound []⟩
          [Op.ret, Op.nop 3]).2.1).map appendLen).sum :=
  C5_location_accounting (fun _ => true) 0 (fun _ => LabelSt.unbound [])
    [Op.ret, Op.nop 3] (by decide)

/-- Claim C6: when the serializer refuses a finalize request during a bind
with several pending patches, the bind reports failure, yet the requests
issued (and accepted) before the refusal stand — the callback trace shows
the earlier patches applied, the refused request last, and no compensating
callback: binding is not transactional. -/
theorem C6_bind_not_transactional (accept : FinalizeReq → Bool) (c : Core) (lbl : Nat)
    (ps₁ : List PendingPatch) (p : PendingPatch) (ps₂ : List PendingPatch)
    (hu : getLabel c lbl = LabelSt.unbound (ps₁ ++ p :: ps₂))
    (h1 : ∀ q ∈ ps₁, accept (mkReq c.location q) = true)
    (h2 : accept (mkReq c.location p) = false) :
    step accept c (Op.bind lbl)
      = (setLabel c lbl (LabelSt.bound c.location),
         (ps₁.map (mkReq c.location) ++ [mkReq c.location p]).map SerCall.finalize,
         false) := by
  simp only [step, stepBind, hu, bindRun_refused accept c.location p ps₂ h2 ps₁ h1]

/-- Witness for C6: two pending patches; the serializer accepts the patch at
offset 0 and refuses the one at offset 6. -/
theorem C6_bind_not_transactional_witness :
    step (fun r => r.location == 0)
        ⟨20, fun _ => LabelSt.unbound [⟨0, 4, true⟩, ⟨6, 4, true⟩]⟩ (Op.bind 0)
      = (setLabel ⟨20, fun _ => LabelSt.unbound [⟨0, 4, true⟩, ⟨6, 4, true⟩]⟩ 0
          (LabelSt.bound 20),
         (([⟨0, 4, true⟩] : List PendingPatch).map (mkReq 20)
            ++ [mkReq 20 ⟨6, 4, true⟩]).map SerCall.finalize,
         false) :=
  C6_bind_not_transactional (fun r => r.location == 0)
    ⟨20, fun _ => LabelSt.unbound [⟨0, 4, true⟩, ⟨6, 4, true⟩]⟩ 0
    [⟨0, 4, true⟩] ⟨6, 4, true⟩ [] rfl (by decide) (by decide)

/-- Claim C7: a memory operand with a base register and zero displacement
omits the displacement field entirely, except for base register code 5
(whose zero-mod ModRM pattern collides with absolute addressing), which
forces exactly one explicit zero displacement byte. -/
theorem C7_zero_disp_encoding (r base : Nat) :
    dispField base 0 = (if base = 5 then [0] else [])
    ∧ encodeMemBaseDisp r base 0
        = ((if base = 5 then 64 else 0) + r * 8 + base)
            :: ((if base = 4 then [36] else []) ++ (if base = 5 then [0] else [])) := by
  have h01 : encodeDisp 0 1 = [0] := by decide
  by_cases hb : base = 5
  · subst hb
    constructor
    · simp [dispField, fits8, h01]
    · simp [encodeMemBaseDisp, dispField, fits8, h01]
  · constructor
    · simp [dispField, hb]
    · simp [encodeMemBaseDisp, dispField, hb]

/-- Claim C8: the only failing calls in the whole interface are a reach
violation (an explicitly short jump to a bound label whose displacement
does not fit 8 signed bits) and a patch failure during a bind; every other
operation reports success for every state. -/
theorem C8_only_two_failures (accept : FinalizeReq → Bool) (c : Core) (op : Op)
    (h : (step accept c op).2.2 = false) :
    (∃ cc lbl L, op = Op.j cc lbl Reach.rshort
      ∧ getLabel c lbl = LabelSt.bound L
      ∧ fits8 ((L : Int) - ((c.location : Int) + 2)) = false)
    ∨ (∃ lbl ps, op = Op.bind lbl
      ∧ getLabel c lbl = LabelSt.unbound ps
      ∧ (bindRun accept c.location ps).2 = false) := by
  cases op with
  | nop n => simp [step] at h
  | ret => simp [step, emit] at h
  | retImm imm => simp [step, emit] at h
  | data b => simp [step, emit] at h
  | movRegImm reg imm ref => simp [step, emit] at h
  | set_location n => simp [step] at h
  | j cc lbl reach =>
    cases hL : getLabel c lbl with
    | bound L =>
      cases reach with
      | rnone =>
        simp only [step, stepJ, hL] at h
        split_ifs at h <;> simp [emit] at h
      | rshort =>
        simp only [step, stepJ, hL] at h
        by_cases hf : fits8 ((L : Int) - ((c.location : Int) + 2)) = true
        · rw [if_pos hf] at h
          simp [emit] at h
        · simp only [Bool.not_eq_true] at hf
          exact Or.inl ⟨cc, lbl, L, rfl, hL, hf⟩
      | rlong =>
        simp [step, stepJ, hL, emit] at h
    | unbound ps =>
      cases reach <;> simp [step, stepJ, hL, emit] at h
  | bind lbl =>
    cases hL : getLabel c lbl with
    | bound L => simp [step, stepBind, hL] at h
    | unbound ps =>
      simp only [step, stepBind, hL] at h
      exact Or.inr ⟨lbl, ps, rfl, hL, h⟩

/-- Witness for C8: the failing call at cursor 0 with a short jump to a
label bound at 1000 is classified as a reach violation. -/
theorem C8_only_two_failures_witness :
    (∃ cc lbl L, Op.j 1 0 Reach.rshort = Op.j cc lbl Reach.rshort
      ∧ getLabel ⟨0, fun _ => LabelSt.bound 1000⟩ lbl = LabelSt.bound L
      ∧ fits8 ((L : Int) - (((0 : Nat) : Int) + 2)) = false)
    ∨ (∃ lbl ps, Op.j 1 0 Reach.rshort = Op.bind lbl
      ∧ getLabel ⟨0, fun _ => LabelSt.bound 1000⟩ lbl = LabelSt.unbound ps
      ∧ (bindRun (fun _ => true) 0 ps).2 = false) :=
  C8_only_two_failures (fun _ => true) ⟨0, fun _ => LabelSt.bound 1000⟩
    (Op.j 1 0 Reach.rshort) (by decide)

/-- Claim C9 counterexample: the header (`assembler_base.h` line 77) exposes
the public accessor `set_location`, which changes the value returned by the
location accessor while performing no serializer callback at all, so it is
false that only successful emissions can change the cursor. -/
theorem C9_counterexample_set_location :
    ¬ (∀ (accept : FinalizeReq → Bool) (c : Core) (op : Op),
        (step accept c op).2.1 = [] → (step accept c op).1.location = c.location) := by
  intro h
  have h42 := h (fun _ => true) ⟨0, fun _ => LabelSt.unbound []⟩ (Op.set_location 42) rfl
  simp [step] at h42

/-- Claim C9 (amended): apart from the public `set_location` accessor, no
public operation changes the cursor except through the instruction-append
path — the new cursor is the old one plus the bytes delivered by the call's
append callbacks (zero for failed or non-emitting calls). -/
theorem C9_cursor_owned (accept : FinalizeReq → Bool) (c : Core) (op : Op)
    (h : op.isSetLoc = false) :
    (step accept c op).1.location
      = c.location + (((step accept c op).2.1).map appendLen).sum :=
  step_location accept c op h

/-- Witness for the amended C9 at a concrete return instruction. -/
theorem C9_cursor_owned_witness :
    (step (fun _ => true) ⟨5, fun _ => LabelSt.unbound []⟩ Op.ret).1.location
      = 5 + (((step (fun _ => true) ⟨5, fun _ => LabelSt.unbound []⟩
          Op.ret).2.1).map appendLen).sum :=
  C9_cursor_owned (fun _ => true) ⟨5, fun _ => LabelSt.unbound []⟩ Op.ret (by decide)

/-- Claim C10: emission is deterministic — two driver instances with equal
cursors and equal label states produce, for the same sequence of calls with
equal arguments, byte-for-byte identical instruction streams and identical
reference lists at the serializer, with identical outcomes; the cursor and
the label registry are the only state the callbacks depend on. -/
theorem C10_deterministic (accept : FinalizeReq → Bool) (ops : List Op)
    (c₁ c₂ : Core) (hloc : c₁.location = c₂.location)
    (hlab : c₁.labels = c₂.labels) :
    run accept c₁ ops = run accept c₂ ops := by
  have hc : c₁ = c₂ := by
    cases c₁
    cases c₂
    simp_all
  rw [hc]

/-- Witness for C10 on two identically-configured instances. -/
theorem C10_deterministic_witness :
    run (fun _ => true) ⟨0, fun _ => LabelSt.unbound []⟩ [Op.ret, Op.j 0 0 Reach.rnone]
      = run (fun _ => true) ⟨0, fun _ => LabelSt.unbound []⟩
          [Op.ret, Op.j 0 0 Reach.rnone] :=
  C10_deterministic (fun _ => true) [Op.ret, Op.j 0 0 Reach.rnone]
    ⟨0, fun _ => LabelSt.unbound []⟩ ⟨0, fun _ => LabelSt.unbound []⟩ rfl rfl

end assm
